import Mathlib

/-!
Verification of `mcp_bridge/services/log_analyzer.py` (class `LogAnalyzer`).

The Python code is shallowly embedded: a log document is a `List Char`,
`content.split('\n')` becomes `splitLinesPy`, and the regular-expression
layer (`re.finditer(pattern, line, re.IGNORECASE)`) is embedded as a small
backtracking matcher over a regex AST that mirrors exactly the nine source
patterns of `LogAnalyzer.ERROR_PATTERNS`.  All quantifiers in those nine
patterns apply to single-character classes, so the AST only needs `+` (greedy
and lazy) over character predicates.  Backtracking respects Python semantics:
alternation prefers the left branch, greedy `+` prefers the longest
consumption, lazy `+?` the shortest, and `finditer` yields successive
non-overlapping leftmost matches.  Inputs are ASCII (the source reads logs as
text); `\d`, `\s` and `IGNORECASE` are modelled on ASCII code points.
-/

/-- ASCII lower-casing on code points, modelling `re.IGNORECASE` comparison. -/
def lowNat (n : Nat) : Nat := if 65 ≤ n ∧ n ≤ 90 then n + 32 else n

/-- ASCII upper-casing on code points, modelling `str.upper()`. -/
def upNat (n : Nat) : Nat := if 97 ≤ n ∧ n ≤ 122 then n - 32 else n

/-- `\d` character class (ASCII digits). -/
def isDigitB (c : Char) : Bool := decide (48 ≤ c.toNat ∧ c.toNat ≤ 57)

/-- `\s` character class (ASCII whitespace as in Python's `re`). -/
def isSpaceB (c : Char) : Bool :=
  decide (c.toNat = 32 ∨ c.toNat = 9 ∨ c.toNat = 10 ∨ c.toNat = 13 ∨
    c.toNat = 11 ∨ c.toNat = 12)

/-- `.` character class (anything but a newline; `re.DOTALL` is not set). -/
def dotB (c : Char) : Bool := decide (¬ c.toNat = 10)

/-- `[^"]` character class. -/
def notQuoteB (c : Char) : Bool := decide (¬ c.toNat = 34)

/-- `[^\s:]` character class. -/
def nonSpaceColonB (c : Char) : Bool := !(isSpaceB c) && decide (¬ c.toNat = 58)

/-- Case-insensitive literal character match (`re.IGNORECASE`). -/
def litMatch (c x : Char) : Bool := lowNat x.toNat == lowNat c.toNat

/-- Regex AST covering the nine patterns of `LogAnalyzer.ERROR_PATTERNS`.
Quantifiers (`plusG` = greedy `+`, `plusL` = lazy `+?`) range over
single-character classes only, which is all those patterns use. -/
inductive RE where
  | eps : RE
  | lit : Char → RE
  | cls : (Char → Bool) → RE
  | seq : RE → RE → RE
  | alt : RE → RE → RE
  | grp : Nat → RE → RE
  | plusG : (Char → Bool) → RE
  | plusL : (Char → Bool) → RE

/-- Capture environment: group number ↦ captured characters (latest first). -/
def Caps : Type := List (Nat × List Char)

/-- Record a capture (Python keeps the most recent value of a group). -/
def setCap (n : Nat) (v : List Char) (caps : Caps) : Caps := (n, v) :: caps

/-- Look up a capture, i.e. `match.group(n)`. -/
def getCap (n : Nat) (caps : Caps) : Option (List Char) :=
  match caps with
  | [] => none
  | p :: rest => if p.1 = n then some p.2 else getCap n rest

/-- A successful match: the input remaining after it, and its captures. -/
structure MatchRes where
  rest : List Char
  caps : Caps

/-- Greedy continuation of `+`: consume as many `p`-characters as possible,
backtracking to shorter consumptions (Python's greedy quantifier). -/
def greedyMore (p : Char → Bool) (k : List Char → Caps → Option MatchRes)
    (caps : Caps) : List Char → Option MatchRes
  | [] => k [] caps
  | x :: rest =>
    if p x then
      match greedyMore p k caps rest with
      | some r => some r
      | none => k (x :: rest) caps
    else k (x :: rest) caps

/-- Lazy continuation of `+?`: consume as few `p`-characters as possible,
extending only when the continuation fails (Python's lazy quantifier). -/
def lazyMore (p : Char → Bool) (k : List Char → Caps → Option MatchRes)
    (caps : Caps) : List Char → Option MatchRes
  | [] => k [] caps
  | x :: rest =>
    match k (x :: rest) caps with
    | some r => some r
    | none => if p x then lazyMore p k caps rest else none

/-- Backtracking matcher in continuation-passing style; tries to match `r`
at the very start of `input` and hands the remaining input and captures to
the continuation `k`.  Alternation prefers the left branch; failure of the
continuation backtracks into the pattern, as in Python's `re`. -/
def matchRE : RE → List Char → (List Char → Caps → Option MatchRes) → Caps → Option MatchRes
  | .eps, input, k, caps => k input caps
  | .lit c, input, k, caps =>
    match input with
    | [] => none
    | x :: rest => if litMatch c x then k rest caps else none
  | .cls p, input, k, caps =>
    match input with
    | [] => none
    | x :: rest => if p x then k rest caps else none
  | .seq a b, input, k, caps =>
    matchRE a input (fun rest caps2 => matchRE b rest k caps2) caps
  | .alt a b, input, k, caps =>
    match matchRE a input k caps with
    | some r => some r
    | none => matchRE b input k caps
  | .grp n r, input, k, caps =>
    matchRE r input
      (fun rest caps2 => k rest (setCap n (input.take (input.length - rest.length)) caps2)) caps
  | .plusG p, input, k, caps =>
    match input with
    | [] => none
    | x :: rest => if p x then greedyMore p k caps rest else none
  | .plusL p, input, k, caps =>
    match input with
    | [] => none
    | x :: rest => if p x then lazyMore p k caps rest else none

/-- Try to match `r` at the start of `s` (the anchored step of `finditer`). -/
def tryMatch (r : RE) (s : List Char) : Option MatchRes :=
  matchRE r s (fun rest caps => some ⟨rest, caps⟩) []

/-- Scanning loop of `re.finditer`: try each position left to right, resume
after the end of each (non-empty) match.  `fuel` only bounds the recursion;
`finditer` supplies enough for the whole scan. -/
def findAllFuel (r : RE) : Nat → List Char → List MatchRes
  | 0, _ => []
  | fuel + 1, s =>
    match tryMatch r s with
    | some m =>
      if m.rest.length < s.length then m :: findAllFuel r fuel m.rest
      else
        match s with
        | [] => [m]
        | _ :: t => m :: findAllFuel r fuel t
    | none =>
      match s with
      | [] => []
      | _ :: t => findAllFuel r fuel t

/-- All matches of `r` in `s`, leftmost first: `re.finditer(r, s, IGNORECASE)`. -/
def finditer (r : RE) (s : List Char) : List MatchRes :=
  findAllFuel r (s.length + 1) s

/-- A sequence of case-insensitive literal characters. -/
def litStr (s : List Char) : RE := s.foldr (fun c r => RE.seq (RE.lit c) r) RE.eps

/-- Source pattern `File "([^"]+)", line (\d+)` (tag `python`). -/
def patPyFile : RE :=
  RE.seq (litStr "File \"".data)
    (RE.seq (RE.grp 1 (RE.plusG notQuoteB))
      (RE.seq (litStr "\", line ".data) (RE.grp 2 (RE.plusG isDigitB))))

/-- Source pattern `Traceback \(most recent call last\):` (tag `python`). -/
def patPyTrace : RE := litStr "Traceback (most recent call last):".data

/-- Source pattern `at (.+?) \((.+?):(\d+):(\d+)\)` (tag `javascript`). -/
def patJsAt : RE :=
  RE.seq (litStr "at ".data)
    (RE.seq (RE.grp 1 (RE.plusL dotB))
      (RE.seq (litStr " (".data)
        (RE.seq (RE.grp 2 (RE.plusL dotB))
          (RE.seq (RE.lit ':')
            (RE.seq (RE.grp 3 (RE.plusG isDigitB))
              (RE.seq (RE.lit ':')
                (RE.seq (RE.grp 4 (RE.plusG isDigitB)) (RE.lit ')'))))))))

/-- Source pattern `Error: (.+)` (tag `javascript`). -/
def patJsError : RE := RE.seq (litStr "Error: ".data) (RE.grp 1 (RE.plusG dotB))

/-- Source pattern `at (.+?)\((.+?):(\d+)\)` (tag `java`). -/
def patJavaAt : RE :=
  RE.seq (litStr "at ".data)
    (RE.seq (RE.grp 1 (RE.plusL dotB))
      (RE.seq (RE.lit '(')
        (RE.seq (RE.grp 2 (RE.plusL dotB))
          (RE.seq (RE.lit ':')
            (RE.seq (RE.grp 3 (RE.plusG isDigitB)) (RE.lit ')'))))))

/-- The extension alternation `(py|js|java|ts|tsx|go|rs|rb|php)`, in source
order (Python alternation prefers the leftmost branch). -/
def extAlt : RE :=
  RE.alt (litStr "py".data)
    (RE.alt (litStr "js".data)
      (RE.alt (litStr "java".data)
        (RE.alt (litStr "ts".data)
          (RE.alt (litStr "tsx".data)
            (RE.alt (litStr "go".data)
              (RE.alt (litStr "rs".data)
                (RE.alt (litStr "rb".data) (litStr "php".data))))))))

/-- The common prefix `([^\s:]+\.(py|js|java|ts|tsx|go|rs|rb|php))` of the
two extension-based generic patterns. -/
def fileDotExt : RE :=
  RE.grp 1 (RE.seq (RE.plusG nonSpaceColonB) (RE.seq (RE.lit '.') (RE.grp 2 extAlt)))

/-- Source pattern `([^\s:]+\.(py|js|java|ts|tsx|go|rs|rb|php)):(\d+):` (tag `generic`). -/
def patExtColon : RE :=
  RE.seq fileDotExt (RE.seq (RE.lit ':') (RE.seq (RE.grp 3 (RE.plusG isDigitB)) (RE.lit ':')))

/-- Source pattern `([^\s:]+\.(py|js|java|ts|tsx|go|rs|rb|php))\((\d+)\)` (tag `generic`). -/
def patExtParen : RE :=
  RE.seq fileDotExt (RE.seq (RE.lit '(') (RE.seq (RE.grp 3 (RE.plusG isDigitB)) (RE.lit ')')))

/-- Source pattern `([^\s:]+/[^\s:]+):(\d+)` (tag `generic`). -/
def patSlash : RE :=
  RE.seq (RE.grp 1 (RE.seq (RE.plusG nonSpaceColonB)
      (RE.seq (RE.lit '/') (RE.plusG nonSpaceColonB))))
    (RE.seq (RE.lit ':') (RE.grp 2 (RE.plusG isDigitB)))

/-- Source pattern `([^\s:]+\\[^\s:]+):(\d+)` (tag `generic`). -/
def patBackslash : RE :=
  RE.seq (RE.grp 1 (RE.seq (RE.plusG nonSpaceColonB)
      (RE.seq (RE.lit '\\') (RE.plusG nonSpaceColonB))))
    (RE.seq (RE.lit ':') (RE.grp 2 (RE.plusG isDigitB)))

/-- `LogAnalyzer.ERROR_PATTERNS`, in source order with the source tags. -/
def ERROR_PATTERNS : List (RE × String) :=
  [(patPyFile, "python"), (patPyTrace, "python"),
   (patJsAt, "javascript"), (patJsError, "javascript"),
   (patJavaAt, "java"),
   (patExtColon, "generic"), (patExtParen, "generic"),
   (patSlash, "generic"), (patBackslash, "generic")]

/-- Number of capture groups of a pattern: `len(match.groups())` in the
source, which is the number of groups of the *pattern*. -/
def RE.groupCount : RE → Nat
  | .seq a b => a.groupCount + b.groupCount
  | .alt a b => a.groupCount + b.groupCount
  | .grp _ r => r.groupCount + 1
  | _ => 0

/-- All group numbers occurring anywhere in a pattern. -/
def RE.allGroups : RE → List Nat
  | .seq a b => a.allGroups ++ b.allGroups
  | .alt a b => a.allGroups ++ b.allGroups
  | .grp n r => n :: r.allGroups
  | _ => []

/-- The character class a group body draws all its characters from: the
class of a greedy `+` body, or the trivial class for any other body. -/
def bodyPred : RE → (Char → Bool)
  | .plusG p => p
  | _ => fun _ => true

/-- The groups on the mandatory spine of a pattern (outside any alternation),
each with the character class its contents are drawn from.  In the nine
source patterns every group is on the spine. -/
def RE.spineSpecs : RE → List (Nat × (Char → Bool))
  | .seq a b => a.spineSpecs ++ b.spineSpecs
  | .grp n r => (n, bodyPred r) :: r.spineSpecs
  | _ => []

/-- A character class is case-insensitive when it cannot distinguish two
characters with the same `lowNat` image. -/
def PredInv (p : Char → Bool) : Prop :=
  ∀ a b : Char, lowNat a.toNat = lowNat b.toNat → p a = p b

/-- All character classes of a pattern are case-insensitive. -/
def GoodRE : RE → Prop
  | .eps => True
  | .lit _ => True
  | .cls p => PredInv p
  | .seq a b => GoodRE a ∧ GoodRE b
  | .alt a b => GoodRE a ∧ GoodRE b
  | .grp _ r => GoodRE r
  | .plusG p => PredInv p
  | .plusL p => PredInv p

/-- `content.split('\n')`: Python string split, which always returns at least
one piece and keeps a trailing empty piece when the text ends in a newline. -/
def splitLinesPy : List Char → List (List Char)
  | [] => [[]]
  | c :: rest =>
    if c.toNat = 10 then [] :: splitLinesPy rest
    else
      match splitLinesPy rest with
      | [] => [[c]]
      | l :: ls => (c :: l) :: ls

/-- The context slice `lines[max(0, i - 5):min(len(lines), i + 5)]` (`i` is the
0-based index of the error line).  The source stores `'\n'.join` of this
slice; we keep the slice itself, the join being immaterial to the claims. -/
def contextSlice (lines : List (List Char)) (i : Nat) : List (List Char) :=
  List.take (min lines.length (i + 5) - (i - 5)) (List.drop (i - 5) lines)

/-- `int(...)` on a captured `\d+` string. -/
def digitsToNat (l : List Char) : Nat :=
  l.foldl (fun acc c => acc * 10 + (c.toNat - 48)) 0

/-- One entry of the list returned by `extract_errors`.  `file_path = none`
models the absence of the `'file_path'` key in the Python dict (every pattern
group on a spine is captured whenever the pattern matches, so a present key
never holds `None`). -/
structure ErrorInfo where
  type : String
  line_in_log : Nat
  raw_line : List Char
  file_path : Option (List Char)
  line_number : Option Nat
  context : List (List Char)
deriving DecidableEq

/-- Building one error dict from a pattern match, following the
`error_type`/group-count branches of `LogAnalyzer.extract_errors`. -/
def mkErrorInfo (lines : List (List Char)) (i : Nat) (line : List Char)
    (p : RE) (etype : String) (m : MatchRes) : ErrorInfo :=
  if etype = "python" ∧ 2 ≤ p.groupCount then
    ⟨etype, i + 1, line, getCap 1 m.caps, (getCap 2 m.caps).map digitsToNat,
      contextSlice lines i⟩
  else if etype = "javascript" ∧ 3 ≤ p.groupCount then
    ⟨etype, i + 1, line, getCap 2 m.caps, (getCap 3 m.caps).map digitsToNat,
      contextSlice lines i⟩
  else if etype = "java" ∧ 3 ≤ p.groupCount then
    ⟨etype, i + 1, line, getCap 2 m.caps, (getCap 3 m.caps).map digitsToNat,
      contextSlice lines i⟩
  else if etype = "generic" then
    if 3 ≤ p.groupCount then
      ⟨etype, i + 1, line, getCap 1 m.caps, (getCap 3 m.caps).map digitsToNat,
        contextSlice lines i⟩
    else if 2 ≤ p.groupCount then
      ⟨etype, i + 1, line, getCap 1 m.caps, (getCap 2 m.caps).map digitsToNat,
        contextSlice lines i⟩
    else ⟨etype, i + 1, line, none, none, contextSlice lines i⟩
  else ⟨etype, i + 1, line, none, none, contextSlice lines i⟩

/-- All error dicts produced for one log line by the pattern loop: patterns
in `ERROR_PATTERNS` order, and for each pattern its `finditer` matches in
order. -/
def lineMatches (lines : List (List Char)) (i : Nat) (line : List Char) : List ErrorInfo :=
  ERROR_PATTERNS.flatMap (fun pt =>
    (finditer pt.1 line).map (fun m => mkErrorInfo lines i line pt.1 pt.2 m))

/-- The structured-pattern loop (`for i, line in enumerate(lines): for
pattern, error_type in self.ERROR_PATTERNS: ...`), started at line index `i`. -/
def structuredGo (lines : List (List Char)) : List (List Char) → Nat → List ErrorInfo
  | [], _ => []
  | line :: rest, i => lineMatches lines i line ++ structuredGo lines rest (i + 1)

/-- The keywords of the fallback layer. -/
def errorKeywords : List (List Char) :=
  ["ERROR".data, "EXCEPTION".data, "FAILED".data, "CRITICAL".data, "FATAL".data]

/-- Contiguous-substring test (Python's `in` on strings), on code points. -/
def isInfixB (needle : List Nat) : List Nat → Bool
  | [] => needle.isEmpty
  | x :: t => needle.isPrefixOf (x :: t) || isInfixB needle t

/-- `any(keyword in line.upper() for keyword in error_keywords)`. -/
def hasKeywordB (line : List Char) : Bool :=
  errorKeywords.any (fun kw =>
    isInfixB (kw.map Char.toNat) (line.map (fun c => upNat c.toNat)))

/-- The error dict appended by the keyword-fallback layer (no file or line
fields). -/
def kwErrorInfo (lines : List (List Char)) (i : Nat) (line : List Char) : ErrorInfo :=
  ⟨"generic", i + 1, line, none, none, contextSlice lines i⟩

/-- The fallback guard: the line contains a keyword and no already-collected
error has this `line_in_log`. -/
def kwCond (errs : List ErrorInfo) (i : Nat) (line : List Char) : Bool :=
  hasKeywordB line && !(errs.any (fun e => e.line_in_log == i + 1))

/-- The keyword-fallback loop, appending to the already-collected errors. -/
def keywordPass (lines : List (List Char)) : List (List Char) → Nat → List ErrorInfo → List ErrorInfo
  | [], _, errs => errs
  | line :: rest, i, errs =>
    keywordPass lines rest (i + 1)
      (if kwCond errs i line then errs ++ [kwErrorInfo lines i line] else errs)

/-- The entries the keyword-fallback loop appends (proved below to be exactly
the difference `keywordPass` makes). -/
def keywordNew (lines : List (List Char)) : List (List Char) → Nat → List ErrorInfo → List ErrorInfo
  | [], _, _ => []
  | line :: rest, i, errs =>
    if kwCond errs i line then
      kwErrorInfo lines i line :: keywordNew lines rest (i + 1) (errs ++ [kwErrorInfo lines i line])
    else keywordNew lines rest (i + 1) errs

/-- `LogAnalyzer.extract_errors` as a function of the document content. -/
def extract_errors (content : List Char) : List ErrorInfo :=
  let lines := splitLinesPy content
  keywordPass lines lines 0 (structuredGo lines lines 0)

/-- The structured-pattern portion of `extract_errors`. -/
def structuredOf (content : List Char) : List ErrorInfo :=
  structuredGo (splitLinesPy content) (splitLinesPy content) 0

/-- The keyword-fallback portion of `extract_errors`. -/
def keywordExtrasOf (content : List Char) : List ErrorInfo :=
  keywordNew (splitLinesPy content) (splitLinesPy content) 0 (structuredOf content)

/-- Python `str.strip()` on a captured path (ASCII whitespace). -/
def trimChars (l : List Char) : List Char :=
  ((l.dropWhile isSpaceB).reverse.dropWhile isSpaceB).reverse

/-- `LogAnalyzer.get_file_references` applied to a given error list: keep
errors with a `'file_path'` key, strip the path, and append each `(path,
line_number)` pair not already collected. -/
def get_file_references_from (errors : List ErrorInfo) : List (List Char × Option Nat) :=
  errors.foldl (fun refs e =>
    match e.file_path with
    | none => refs
    | some fp =>
      if (trimChars fp, e.line_number) ∈ refs then refs
      else refs ++ [(trimChars fp, e.line_number)]) []

/-- `get_file_references` on a fresh analyzer for a document. -/
def get_file_references (content : List Char) : List (List Char × Option Nat) :=
  get_file_references_from (extract_errors content)

/-- The `(stripped path, line number)` projection of an error list, one pair
per occurrence that carries a file path and before any deduplication. -/
def fileRefPairs (errors : List ErrorInfo) : List (List Char × Option Nat) :=
  errors.filterMap (fun e => e.file_path.map (fun fp => (trimChars fp, e.line_number)))

/-- First-occurrence deduplication relative to already-kept entries `acc`. -/
def dedupFirst {α : Type} [DecidableEq α] (acc : List α) : List α → List α
  | [] => []
  | x :: xs => if x ∈ acc then dedupFirst acc xs else x :: dedupFirst (acc ++ [x]) xs

/-- The summary dict of `LogAnalyzer.get_summary`.  The `log_file` entry
(just the constructor argument) is omitted; `error_types` models
`list(set(...))` as first-occurrence deduplication (Python's set iteration
order is unspecified, and no claim depends on it). -/
structure Summary where
  total_errors : Nat
  error_types : List String
  file_references : Nat
deriving DecidableEq

/-- The mutable state of a `LogAnalyzer` object: its content and the
`self.errors` cache (initially `[]`). -/
structure AnalyzerState where
  content : List Char
  errors : List ErrorInfo

/-- Method `extract_errors`: recomputes and caches `self.errors`. -/
def extractErrorsM (st : AnalyzerState) : List ErrorInfo × AnalyzerState :=
  (extract_errors st.content, ⟨st.content, extract_errors st.content⟩)

/-- Method `get_file_references`: `if not self.errors: self.extract_errors()`
then fold over `self.errors`. -/
def getFileReferencesM (st : AnalyzerState) : List (List Char × Option Nat) × AnalyzerState :=
  let st1 := if st.errors = [] then (extractErrorsM st).2 else st
  (get_file_references_from st1.errors, st1)

/-- Method `get_summary`: ensure `self.errors`, then report the error count,
the distinct types, and the size of `get_file_references()`. -/
def getSummaryM (st : AnalyzerState) : Summary × AnalyzerState :=
  let st1 := if st.errors = [] then (extractErrorsM st).2 else st
  let refs := getFileReferencesM st1
  (⟨st1.errors.length, dedupFirst [] (st1.errors.map (fun e => e.type)), refs.1.length⟩, refs.2)

/-- Case-equivalence of characters: equal up to ASCII letter case. -/
def caseEq (a b : Char) : Prop := lowNat a.toNat = lowNat b.toNat

/-- Case-equivalence of character strings (pointwise). -/
def caseEqL (l l' : List Char) : Prop := List.Forall₂ caseEq l l'

/-- Boolean case-equivalence of strings, to instantiate the relation on
concrete inputs. -/
def caseEqLB : List Char → List Char → Bool
  | [], [] => true
  | a :: l, b :: m => (lowNat a.toNat == lowNat b.toNat) && caseEqLB l m
  | _, _ => false

/-- Capture environments relate when group numbers agree and captured values
are case-equivalent. -/
def capsRel (c c' : Caps) : Prop :=
  List.Forall₂ (fun p q : Nat × List Char => p.1 = q.1 ∧ caseEqL p.2 q.2) c c'

/-- Matches relate when remaining inputs and captures are case-equivalent. -/
def resRel (m m' : MatchRes) : Prop := caseEqL m.rest m'.rest ∧ capsRel m.caps m'.caps

/-- Lifting of `resRel` to optional match results. -/
inductive OptRel : Option MatchRes → Option MatchRes → Prop
  | none : OptRel none none
  | some {m m' : MatchRes} : resRel m m' → OptRel (some m) (some m')

/-- Continuations relate when they send related arguments to related results. -/
def KRel (k k' : List Char → Caps → Option MatchRes) : Prop :=
  ∀ rest rest' c c', caseEqL rest rest' → capsRel c c' → OptRel (k rest c) (k' rest' c')

/-- Case-equivalence of optional captured paths. -/
def optCaseEq : Option (List Char) → Option (List Char) → Prop
  | none, none => True
  | some a, some b => caseEqL a b
  | _, _ => False

/-- Correspondence of error records extracted from case-equivalent documents:
equal kind, log line, presence of fields and parsed line number;
case-equivalent text fields. -/
def errRel (e e' : ErrorInfo) : Prop :=
  e.type = e'.type ∧ e.line_in_log = e'.line_in_log ∧ caseEqL e.raw_line e'.raw_line ∧
  optCaseEq e.file_path e'.file_path ∧ e.line_number = e'.line_number ∧
  List.Forall₂ caseEqL e.context e'.context

/-- A default record, used only to pick elements out of concrete lists. -/
def infoDefault : ErrorInfo := ⟨"generic", 0, [], none, none, []⟩

/-- A document whose keyword-only line precedes a structured-pattern line. -/
def docC1 : List Char := "FAILED thing\nFile \"a.py\", line 1".data

/-- The document of the C2 scenario. -/
def docC2 : List Char := "INFO: server started\nERROR: connection refused\n".data

/-- The document of the C3 scenario. -/
def docC3 : List Char := "File \"app/views.py\", line 42\n    raise ValueError(\"bad\")\n".data

/-- The document of the C4 scenario. -/
def docC4 : List Char := "src/main.go:88: nil pointer\n".data

/-- A 7-line document whose only error sits on the first line. -/
def docC5 : List Char := "ERROR a\nb\nc\nd\ne\nf\ng".data

/-- A document with a structured match on line 2 and a keyword hit on line 1. -/
def docC6 : List Char := "FAILED thing\nFile \"b.py\", line 7".data

/-- A document with one generic extension-pattern occurrence. -/
def docC7 : List Char := "src/app.py:12: boom".data

/-- A document with two occurrences of the same file reference. -/
def docC9 : List Char := "src/main.go:88: nil pointer\nsrc/main.go:88: again\n".data

/-- A lower-case document for the case-insensitivity claim. -/
def docC10 : List Char := "error: message".data

/-- The same document with the casing the pattern is written in. -/
def docC10up : List Char := "Error: message".data

theorem keywordPass_eq (lines : List (List Char)) :
    ∀ (ls : List (List Char)) (i : Nat) (errs : List ErrorInfo),
      keywordPass lines ls i errs = errs ++ keywordNew lines ls i errs
  | [], _, _ => by simp [keywordPass, keywordNew]
  | line :: rest, i, errs => by
    simp only [keywordPass, keywordNew]
    by_cases h : kwCond errs i line = true
    · rw [if_pos h, if_pos h,
        keywordPass_eq lines rest (i + 1) (errs ++ [kwErrorInfo lines i line])]
      simp
    · rw [if_neg h, if_neg h, keywordPass_eq lines rest (i + 1) errs]

theorem extract_errors_split (content : List Char) :
    extract_errors content = structuredOf content ++ keywordExtrasOf content := by
  simp only [extract_errors, structuredOf, keywordExtrasOf]
  exact keywordPass_eq _ _ _ _

theorem mkErrorInfo_line_in_log (lines : List (List Char)) (i : Nat) (line : List Char)
    (p : RE) (etype : String) (m : MatchRes) :
    (mkErrorInfo lines i line p etype m).line_in_log = i + 1 := by
  unfold mkErrorInfo; split_ifs <;> rfl

theorem mkErrorInfo_context (lines : List (List Char)) (i : Nat) (line : List Char)
    (p : RE) (etype : String) (m : MatchRes) :
    (mkErrorInfo lines i line p etype m).context = contextSlice lines i := by
  unfold mkErrorInfo; split_ifs <;> rfl

theorem lineMatches_mem {lines : List (List Char)} {i : Nat} {line : List Char} {e : ErrorInfo}
    (h : e ∈ lineMatches lines i line) :
    ∃ pt, pt ∈ ERROR_PATTERNS ∧ ∃ m, m ∈ finditer pt.1 line ∧
      e = mkErrorInfo lines i line pt.1 pt.2 m := by
  simp only [lineMatches, List.mem_flatMap, List.mem_map] at h
  obtain ⟨pt, hpt, m, hm, he⟩ := h
  exact ⟨pt, hpt, m, hm, he.symm⟩

theorem lineMatches_line_in_log {lines : List (List Char)} {i : Nat} {line : List Char}
    {e : ErrorInfo} (h : e ∈ lineMatches lines i line) : e.line_in_log = i + 1 := by
  obtain ⟨pt, _, m, _, rfl⟩ := lineMatches_mem h
  exact mkErrorInfo_line_in_log ..

theorem structuredGo_mem (lines : List (List Char)) :
    ∀ (ls : List (List Char)) (i : Nat) (e : ErrorInfo), e ∈ structuredGo lines ls i →
      ∃ j line, i ≤ j ∧ j < i + ls.length ∧
        ∃ pt, pt ∈ ERROR_PATTERNS ∧ ∃ m, m ∈ finditer pt.1 line ∧
          e = mkErrorInfo lines j line pt.1 pt.2 m
  | [], _, _, h => by simp [structuredGo] at h
  | line :: rest, i, e, h => by
    rcases List.mem_append.mp h with h | h
    · obtain ⟨pt, hpt, m, hm, he⟩ := lineMatches_mem h
      exact ⟨i, line, le_rfl, by simp, pt, hpt, m, hm, he⟩
    · obtain ⟨j, line', h1, h2, hrest⟩ := structuredGo_mem lines rest (i + 1) e h
      refine ⟨j, line', by omega, ?_, hrest⟩
      simp only [List.length_cons]
      omega

theorem structuredGo_line_bounds {lines : List (List Char)} {ls : List (List Char)}
    {i : Nat} {e : ErrorInfo} (h : e ∈ structuredGo lines ls i) :
    i + 1 ≤ e.line_in_log ∧ e.line_in_log ≤ i + ls.length := by
  obtain ⟨j, line, h1, h2, _, _, _, _, rfl⟩ := structuredGo_mem lines ls i e h
  rw [mkErrorInfo_line_in_log]
  omega

theorem structuredGo_sorted (lines : List (List Char)) :
    ∀ (ls : List (List Char)) (i : Nat),
      List.Pairwise (fun a b : ErrorInfo => a.line_in_log ≤ b.line_in_log)
        (structuredGo lines ls i)
  | [], _ => List.Pairwise.nil
  | line :: rest, i => by
    rw [structuredGo, List.pairwise_append]
    refine ⟨?_, structuredGo_sorted lines rest (i + 1), ?_⟩
    · exact List.pairwise_of_forall_mem_list fun a ha b hb => by
        rw [lineMatches_line_in_log ha, lineMatches_line_in_log hb]
    · intro a ha b hb
      rw [lineMatches_line_in_log ha]
      exact le_trans (by omega) (structuredGo_line_bounds hb).1

theorem keywordNew_shape (lines : List (List Char)) :
    ∀ (ls : List (List Char)) (i : Nat) (errs : List ErrorInfo) (e : ErrorInfo),
      e ∈ keywordNew lines ls i errs →
      i + 1 ≤ e.line_in_log ∧ e.line_in_log ≤ i + ls.length ∧
        e = kwErrorInfo lines (e.line_in_log - 1) e.raw_line
  | [], _, _, _, h => by simp [keywordNew] at h
  | line :: rest, i, errs, e, h => by
    by_cases hc : kwCond errs i line
    · rw [keywordNew, if_pos hc] at h
      rcases List.mem_cons.mp h with rfl | h
      · refine ⟨le_rfl, ?_, rfl⟩
        simp only [kwErrorInfo, List.length_cons]
        omega
      · obtain ⟨h1, h2, h3⟩ := keywordNew_shape lines rest (i + 1) _ e h
        refine ⟨by omega, ?_, h3⟩
        simp only [List.length_cons]
        omega
    · rw [keywordNew, if_neg hc] at h
      obtain ⟨h1, h2, h3⟩ := keywordNew_shape lines rest (i + 1) errs e h
      refine ⟨by omega, ?_, h3⟩
      simp only [List.length_cons]
      omega

theorem keywordNew_sorted (lines : List (List Char)) :
    ∀ (ls : List (List Char)) (i : Nat) (errs : List ErrorInfo),
      List.Pairwise (fun a b : ErrorInfo => a.line_in_log < b.line_in_log)
        (keywordNew lines ls i errs)
  | [], _, _ => List.Pairwise.nil
  | line :: rest, i, errs => by
    by_cases hc : kwCond errs i line
    · rw [keywordNew, if_pos hc]
      refine List.Pairwise.cons ?_ (keywordNew_sorted lines rest (i + 1) _)
      intro e he
      have := (keywordNew_shape lines rest (i + 1) _ e he).1
      simp only [kwErrorInfo]
      omega
    · rw [keywordNew, if_neg hc]
      exact keywordNew_sorted lines rest (i + 1) errs

/-- Claim C1 (amended): the occurrences produced by the structured patterns
come first, in ascending `line_in_log` order (occurrences of one line appear
in the order the patterns were tried, which is the very definition of
`lineMatches`); all keyword-fallback occurrences follow the whole structured
block, themselves in strictly ascending `line_in_log` order.  The full
sequence is *not* globally sorted (see the counterexample). -/
theorem claim_C1 (content : List Char) :
    extract_errors content = structuredOf content ++ keywordExtrasOf content ∧
    List.Pairwise (fun a b : ErrorInfo => a.line_in_log ≤ b.line_in_log)
      (structuredOf content) ∧
    List.Pairwise (fun a b : ErrorInfo => a.line_in_log < b.line_in_log)
      (keywordExtrasOf content) :=
  ⟨extract_errors_split content, structuredGo_sorted _ _ _, keywordNew_sorted _ _ _ _⟩

/-- Claim C1 counterexample: on `docC1` the keyword-fallback occurrence of
log line 1 is appended after the structured occurrence of log line 2, so the
output of `extract_errors` is not sorted by ascending `line_in_log`. -/
theorem claim_C1_counterexample :
    ¬ List.Pairwise (fun a b : ErrorInfo => a.line_in_log ≤ b.line_in_log)
      (extract_errors docC1) := by decide

/-- Claim C2 counterexample: the single occurrence extracted from the C2
scenario document is *not* of the keyword-fallback (generic) kind — the list
of kinds is not `["generic"]`. -/
theorem claim_C2_counterexample :
    ¬ (extract_errors docC2).map (fun e => e.type) = ["generic"] := by decide

/-- Claim C2 (amended): on the C2 document `extract_errors` returns exactly
one occurrence at `line_in_log = 2` with neither file path nor line number,
but it is produced by the structured `Error: (.+)` pattern (kind
`javascript`), because that pattern matches `ERROR: connection refused`
case-insensitively; the keyword fallback therefore never fires. -/
theorem claim_C2 :
    (extract_errors docC2).map (fun e => (e.type, e.line_in_log, e.file_path, e.line_number)) =
      [("javascript", 2, none, none)] ∧
    (finditer patJsError "ERROR: connection refused".data).length = 1 ∧
    keywordExtrasOf docC2 = [] := by decide

/-- Claim C3 counterexample: the C3 scenario document yields two occurrences,
not exactly one. -/
theorem claim_C3_counterexample : ¬ (extract_errors docC3).length = 1 := by decide

/-- Claim C3 (amended): the C3 document yields the stated python-trace
occurrence (`sourceFilePath = "app/views.py"`, `sourceLineNumber = 42`,
`line_in_log = 1`) *plus* one keyword-fallback occurrence at log line 2,
because `raise ValueError("bad")` upper-cases to a string containing the
keyword `ERROR`. -/
theorem claim_C3 :
    (extract_errors docC3).map (fun e => (e.type, e.line_in_log, e.file_path, e.line_number)) =
      [("python", 1, some "app/views.py".data, some 42), ("generic", 2, none, none)] ∧
    (structuredOf docC3).length = 1 ∧
    (keywordExtrasOf docC3).map (fun e => e.line_in_log) = [2] := by decide

/-- Claim C4 counterexample: the C4 scenario document yields two occurrences,
not exactly one. -/
theorem claim_C4_counterexample : ¬ (extract_errors docC4).length = 1 := by decide

/-- Claim C4 (amended): on the C4 document *two* generic occurrences are
produced, both with `sourceFilePath = "src/main.go"` and
`sourceLineNumber = 88`: the extension pattern
`([^\s:]+\.(py|...|go|...)):(\d+):` fires once and the slash pattern
`([^\s:]+/[^\s:]+):(\d+)` fires once, in that (pattern-list) order. -/
theorem claim_C4 :
    (extract_errors docC4).map (fun e => (e.type, e.line_in_log, e.file_path, e.line_number)) =
      [("generic", 1, some "src/main.go".data, some 88),
       ("generic", 1, some "src/main.go".data, some 88)] ∧
    (finditer patExtColon "src/main.go:88: nil pointer".data).length = 1 ∧
    (finditer patSlash "src/main.go:88: nil pointer".data).length = 1 ∧
    (finditer patExtParen "src/main.go:88: nil pointer".data).length = 0 ∧
    (finditer patBackslash "src/main.go:88: nil pointer".data).length = 0 := by decide

theorem extract_mem_context {content : List Char} {e : ErrorInfo}
    (h : e ∈ extract_errors content) :
    1 ≤ e.line_in_log ∧ e.line_in_log ≤ (splitLinesPy content).length ∧
      e.context = contextSlice (splitLinesPy content) (e.line_in_log - 1) := by
  rw [extract_errors_split] at h
  rcases List.mem_append.mp h with h | h
  · obtain ⟨j, line, h1, h2, pt, hpt, m, hm, rfl⟩ :=
      structuredGo_mem (splitLinesPy content) (splitLinesPy content) 0 e h
    rw [mkErrorInfo_line_in_log, mkErrorInfo_context]
    refine ⟨by omega, by omega, ?_⟩
    simp
  · obtain ⟨h1, h2, h3⟩ :=
      keywordNew_shape (splitLinesPy content) (splitLinesPy content) 0 _ e h
    have hctx := congrArg ErrorInfo.context h3
    have hraw := congrArg ErrorInfo.line_in_log h3
    simp only [kwErrorInfo] at hctx hraw
    exact ⟨by omega, by omega, hctx⟩

/-- Claim C5 (amended): every occurrence's context window is the slice
`lines[max(0, i - 5):min(n, i + 5)]` of the document's lines, with `i` the
0-based index of its log line and `n` the number of lines: it covers up to 5
lines before and up to 4 lines after the error line, never exceeds 10 lines,
is `min(5, n)` lines long when the error is on the first line, and
`min(6, n)` lines long when the error is on the last line. -/
theorem claim_C5 (content : List Char) (e : ErrorInfo) (h : e ∈ extract_errors content) :
    1 ≤ e.line_in_log ∧ e.line_in_log ≤ (splitLinesPy content).length ∧
    e.context = contextSlice (splitLinesPy content) (e.line_in_log - 1) ∧
    e.context.length =
      min (splitLinesPy content).length (e.line_in_log - 1 + 5) - (e.line_in_log - 1 - 5) ∧
    e.context.length ≤ 10 ∧
    (e.line_in_log = 1 → e.context.length = min 5 (splitLinesPy content).length) ∧
    (e.line_in_log = (splitLinesPy content).length →
      e.context.length = min 6 (splitLinesPy content).length) := by
  obtain ⟨h1, h2, h3⟩ := extract_mem_context h
  refine ⟨h1, h2, h3, ?_⟩
  rw [h3]
  simp only [contextSlice, List.length_take, List.length_drop]
  omega

/-- Claim C5 counterexample: on `docC5` (7 lines, error on line 1) the
context window has 5 lines, not the `min(6, documentLineCount) = 6` lines the
claim asserts for the first line of the document. -/
theorem claim_C5_counterexample :
    (extract_errors docC5).map (fun e => (e.line_in_log, e.context.length)) = [(1, 5)] ∧
    ¬ (5 = min 6 (splitLinesPy docC5).length) := by decide

theorem claim_C5_witness :
    1 ≤ ((extract_errors docC5).getD 0 infoDefault).line_in_log ∧
    ((extract_errors docC5).getD 0 infoDefault).line_in_log ≤ (splitLinesPy docC5).length ∧
    ((extract_errors docC5).getD 0 infoDefault).context =
      contextSlice (splitLinesPy docC5)
        (((extract_errors docC5).getD 0 infoDefault).line_in_log - 1) ∧
    ((extract_errors docC5).getD 0 infoDefault).context.length =
      min (splitLinesPy docC5).length
        (((extract_errors docC5).getD 0 infoDefault).line_in_log - 1 + 5) -
        (((extract_errors docC5).getD 0 infoDefault).line_in_log - 1 - 5) ∧
    ((extract_errors docC5).getD 0 infoDefault).context.length ≤ 10 ∧
    (((extract_errors docC5).getD 0 infoDefault).line_in_log = 1 →
      ((extract_errors docC5).getD 0 infoDefault).context.length =
        min 5 (splitLinesPy docC5).length) ∧
    (((extract_errors docC5).getD 0 infoDefault).line_in_log = (splitLinesPy docC5).length →
      ((extract_errors docC5).getD 0 infoDefault).context.length =
        min 6 (splitLinesPy docC5).length) :=
  claim_C5 docC5 ((extract_errors docC5).getD 0 infoDefault) (by decide)

theorem keywordNew_fresh (lines : List (List Char)) :
    ∀ (ls : List (List Char)) (i : Nat) (errs : List ErrorInfo) (e : ErrorInfo),
      e ∈ keywordNew lines ls i errs → ∀ s ∈ errs, s.line_in_log ≠ e.line_in_log
  | [], _, _, _, h => by simp [keywordNew] at h
  | line :: rest, i, errs, e, h => by
    by_cases hc : kwCond errs i line = true
    · rw [keywordNew, if_pos hc] at h
      rcases List.mem_cons.mp h with rfl | h
      · intro s hs
        have hany : errs.any (fun e => e.line_in_log == i + 1) = false := by
          have := hc
          simp only [kwCond, Bool.and_eq_true, Bool.not_eq_true'] at this
          exact this.2
        rw [List.any_eq_false] at hany
        have := hany s hs
        simp only [kwErrorInfo]
        simpa using this
      · intro s hs
        exact keywordNew_fresh lines rest (i + 1) _ e h s (List.mem_append_left _ hs)
    · rw [keywordNew, if_neg hc] at h
      exact keywordNew_fresh lines rest (i + 1) errs e h

/-- Claim C6 (confirmed): if any structured pattern produced an occurrence
for a given log line, the keyword-fallback layer produces no occurrence for
that line (the fallback guard checks the already-collected errors). -/
theorem claim_C6 (content : List Char) (i : Nat)
    (h : i ∈ (structuredOf content).map (fun e => e.line_in_log)) :
    extract_errors content = structuredOf content ++ keywordExtrasOf content ∧
    i ∉ (keywordExtrasOf content).map (fun e => e.line_in_log) := by
  refine ⟨extract_errors_split content, ?_⟩
  intro hmem
  obtain ⟨e, he, hei⟩ := List.mem_map.mp hmem
  obtain ⟨s, hs, hsi⟩ := List.mem_map.mp h
  exact keywordNew_fresh (splitLinesPy content) (splitLinesPy content) 0 _ e he s hs
    (by rw [hsi, hei])

theorem claim_C6_witness :
    extract_errors docC6 = structuredOf docC6 ++ keywordExtrasOf docC6 ∧
    2 ∉ (keywordExtrasOf docC6).map (fun e => e.line_in_log) :=
  claim_C6 docC6 2 (by decide)

theorem take_all_trivial (input : List Char) (n : Nat) :
    (input.take n).all (fun _ => true) = true := by simp

theorem getCap_setCap_ne {m n : Nat} (h : ¬ n = m) (v : List Char) (caps : Caps) :
    getCap m (setCap n v caps) = getCap m caps := by
  simp only [getCap, setCap, if_neg h]

theorem getCap_setCap_self (n : Nat) (v : List Char) (caps : Caps) :
    getCap n (setCap n v caps) = some v := by
  simp [getCap, setCap]

theorem spineSpecs_key_mem :
    ∀ (r : RE) (nq : Nat × (Char → Bool)), nq ∈ r.spineSpecs → nq.1 ∈ r.allGroups
  | .seq a b, nq, h => by
    rcases List.mem_append.mp h with h | h
    · exact List.mem_append_left _ (spineSpecs_key_mem a nq h)
    · exact List.mem_append_right _ (spineSpecs_key_mem b nq h)
  | .grp n r, nq, h => by
    rcases List.mem_cons.mp h with rfl | h
    · exact List.mem_cons_self _ _
    · exact List.mem_cons_of_mem _ (spineSpecs_key_mem r nq h)
  | .eps, nq, h => by simp [RE.spineSpecs] at h
  | .lit _, nq, h => by simp [RE.spineSpecs] at h
  | .cls _, nq, h => by simp [RE.spineSpecs] at h
  | .alt _ _, nq, h => by simp [RE.spineSpecs] at h
  | .plusG _, nq, h => by simp [RE.spineSpecs] at h
  | .plusL _, nq, h => by simp [RE.spineSpecs] at h

theorem greedyMore_consume (p : Char → Bool) (k : List Char → Caps → Option MatchRes)
    (caps : Caps) :
    ∀ (input : List Char) (res : MatchRes), greedyMore p k caps input = some res →
      ∃ pre rest, input = pre ++ rest ∧ pre.all p = true ∧ k rest caps = some res
  | [], _, h => ⟨[], [], rfl, rfl, h⟩
  | x :: rest0, res, h => by
    rw [greedyMore] at h
    by_cases hp : p x = true
    · rw [if_pos hp] at h
      cases hg : greedyMore p k caps rest0 with
      | some r0 =>
        rw [hg] at h
        cases h
        obtain ⟨pre, rest, heq, hall, hk⟩ := greedyMore_consume p k caps rest0 res hg
        exact ⟨x :: pre, rest, by rw [List.cons_append, heq], by simp [hp, hall], hk⟩
      | none =>
        rw [hg] at h
        exact ⟨[], x :: rest0, rfl, rfl, h⟩
    · rw [if_neg hp] at h
      exact ⟨[], x :: rest0, rfl, rfl, h⟩

theorem lazyMore_consume (p : Char → Bool) (k : List Char → Caps → Option MatchRes)
    (caps : Caps) :
    ∀ (input : List Char) (res : MatchRes), lazyMore p k caps input = some res →
      ∃ pre rest, input = pre ++ rest ∧ pre.all p = true ∧ k rest caps = some res
  | [], _, h => ⟨[], [], rfl, rfl, h⟩
  | x :: rest0, res, h => by
    rw [lazyMore] at h
    cases hg : k (x :: rest0) caps with
    | some r0 =>
      rw [hg] at h
      cases h
      exact ⟨[], x :: rest0, rfl, rfl, hg⟩
    | none =>
      rw [hg] at h
      by_cases hp : p x = true
      · rw [if_pos hp] at h
        obtain ⟨pre, rest, heq, hall, hk⟩ := lazyMore_consume p k caps rest0 res h
        exact ⟨x :: pre, rest, by rw [List.cons_append, heq], by simp [hp, hall], hk⟩
      · rw [if_neg hp] at h
        exact absurd h (by simp)

theorem matchRE_caps :
    ∀ (r : RE), r.allGroups.Nodup →
    ∀ (input : List Char) (k : List Char → Caps → Option MatchRes) (caps : Caps)
      (res : MatchRes), matchRE r input k caps = some res →
      ∃ rest caps2, k rest caps2 = some res ∧
        (input.take (input.length - rest.length)).all (bodyPred r) = true ∧
        (∀ m, m ∉ r.allGroups → getCap m caps2 = getCap m caps) ∧
        (∀ nq ∈ r.spineSpecs, ∃ v, getCap nq.1 caps2 = some v ∧ v.all nq.2 = true)
  | .eps, _, input, k, caps, res, h =>
    ⟨input, caps, h, by simp, fun m _ => rfl, fun nq hnq => by simp [RE.spineSpecs] at hnq⟩
  | .lit c, _, input, k, caps, res, h => by
    cases input with
    | nil => exact absurd h (by simp [matchRE])
    | cons x rest0 =>
      rw [matchRE] at h
      by_cases hl : litMatch c x = true
      · rw [if_pos hl] at h
        exact ⟨rest0, caps, h, take_all_trivial _ _, fun m _ => rfl,
          fun nq hnq => by simp [RE.spineSpecs] at hnq⟩
      · rw [if_neg hl] at h
        exact absurd h (by simp)
  | .cls p, _, input, k, caps, res, h => by
    cases input with
    | nil => exact absurd h (by simp [matchRE])
    | cons x rest0 =>
      rw [matchRE] at h
      by_cases hl : p x = true
      · rw [if_pos hl] at h
        exact ⟨rest0, caps, h, take_all_trivial _ _, fun m _ => rfl,
          fun nq hnq => by simp [RE.spineSpecs] at hnq⟩
      · rw [if_neg hl] at h
        exact absurd h (by simp)
  | .seq a b, hnd, input, k, caps, res, h => by
    obtain ⟨hna, hnb, hdisj⟩ := List.nodup_append.mp hnd
    rw [matchRE] at h
    obtain ⟨rest1, caps1, hk1, _, hpres1, hspec1⟩ := matchRE_caps a hna input _ caps res h
    obtain ⟨rest2, caps2, hk2, _, hpres2, hspec2⟩ := matchRE_caps b hnb rest1 k caps1 res hk1
    refine ⟨rest2, caps2, hk2, take_all_trivial _ _, ?_, ?_⟩
    · intro m hm
      rw [RE.allGroups, List.mem_append] at hm
      push_neg at hm
      rw [hpres2 m hm.2, hpres1 m hm.1]
    · intro nq hnq
      rcases List.mem_append.mp hnq with hnq | hnq
      · obtain ⟨v, hv, hall⟩ := hspec1 nq hnq
        refine ⟨v, ?_, hall⟩
        rw [hpres2 nq.1 (fun hmem => hdisj (spineSpecs_key_mem a nq hnq) hmem), hv]
      · exact hspec2 nq hnq
  | .alt a b, hnd, input, k, caps, res, h => by
    obtain ⟨hna, hnb, _⟩ := List.nodup_append.mp hnd
    rw [matchRE] at h
    cases hA : matchRE a input k caps with
    | some r0 =>
      rw [hA] at h
      cases h
      obtain ⟨rest, caps2, hk, _, hpres, _⟩ := matchRE_caps a hna input k caps res hA
      refine ⟨rest, caps2, hk, take_all_trivial _ _, ?_,
        fun nq hnq => by simp [RE.spineSpecs] at hnq⟩
      intro m hm
      rw [RE.allGroups, List.mem_append] at hm
      push_neg at hm
      exact hpres m hm.1
    | none =>
      rw [hA] at h
      obtain ⟨rest, caps2, hk, _, hpres, _⟩ := matchRE_caps b hnb input k caps res h
      refine ⟨rest, caps2, hk, take_all_trivial _ _, ?_,
        fun nq hnq => by simp [RE.spineSpecs] at hnq⟩
      intro m hm
      rw [RE.allGroups, List.mem_append] at hm
      push_neg at hm
      exact hpres m hm.2
  | .grp n r, hnd, input, k, caps, res, h => by
    obtain ⟨hn, hnr⟩ := List.nodup_cons.mp hnd
    rw [matchRE] at h
    obtain ⟨rest1, caps1, hk1, hcons, hpres1, hspec1⟩ := matchRE_caps r hnr input _ caps res h
    refine ⟨rest1, setCap n (input.take (input.length - rest1.length)) caps1, hk1,
      take_all_trivial _ _, ?_, ?_⟩
    · intro m hm
      rw [RE.allGroups, List.mem_cons] at hm
      push_neg at hm
      rw [getCap_setCap_ne (fun hmn => hm.1 hmn.symm) _ _, hpres1 m hm.2]
    · intro nq hnq
      rcases List.mem_cons.mp hnq with rfl | hnq
      · exact ⟨input.take (input.length - rest1.length), getCap_setCap_self _ _ _, hcons⟩
      · obtain ⟨v, hv, hall⟩ := hspec1 nq hnq
        refine ⟨v, ?_, hall⟩
        have hne : ¬ n = nq.1 := fun heq => hn (heq ▸ spineSpecs_key_mem r nq hnq)
        rw [getCap_setCap_ne hne _ _, hv]
  | .plusG p, _, input, k, caps, res, h => by
    cases input with
    | nil => exact absurd h (by simp [matchRE])
    | cons x rest0 =>
      rw [matchRE] at h
      by_cases hp : p x = true
      · rw [if_pos hp] at h
        obtain ⟨pre, rest, heq, hall, hk⟩ := greedyMore_consume p k caps rest0 res h
        refine ⟨rest, caps, hk, ?_, fun m _ => rfl,
          fun nq hnq => by simp [RE.spineSpecs] at hnq⟩
        subst heq
        have hlen : (x :: (pre ++ rest)).length - rest.length = pre.length + 1 := by
          simp only [List.length_cons, List.length_append]
          omega
        rw [hlen, List.take_succ_cons, List.take_left]
        show ((x :: pre).all p) = true
        simp [hp, hall]
      · rw [if_neg hp] at h
        exact absurd h (by simp)
  | .plusL p, _, input, k, caps, res, h => by
    cases input with
    | nil => exact absurd h (by simp [matchRE])
    | cons x rest0 =>
      rw [matchRE] at h
      by_cases hp : p x = true
      · rw [if_pos hp] at h
        obtain ⟨pre, rest, heq, hall, hk⟩ := lazyMore_consume p k caps rest0 res h
        exact ⟨rest, caps, hk, take_all_trivial _ _, fun m _ => rfl,
          fun nq hnq => by simp [RE.spineSpecs] at hnq⟩
      · rw [if_neg hp] at h
        exact absurd h (by simp)

theorem tryMatch_caps {r : RE} (hnd : r.allGroups.Nodup) {s : List Char} {m : MatchRes}
    (h : tryMatch r s = some m) :
    ∀ nq ∈ r.spineSpecs, ∃ v, getCap nq.1 m.caps = some v ∧ v.all nq.2 = true := by
  obtain ⟨rest, caps2, hk, _, _, hspec⟩ := matchRE_caps r hnd s _ [] m h
  cases hk
  exact hspec

theorem findAllFuel_succ (r : RE) (fuel : Nat) (s : List Char) :
    findAllFuel r (fuel + 1) s =
      match tryMatch r s with
      | some m =>
        if m.rest.length < s.length then m :: findAllFuel r fuel m.rest
        else
          match s with
          | [] => [m]
          | _ :: t => m :: findAllFuel r fuel t
      | none =>
        match s with
        | [] => []
        | _ :: t => findAllFuel r fuel t := rfl

theorem findAllFuel_mem_tryMatch (r : RE) :
    ∀ (fuel : Nat) (s : List Char) (m : MatchRes), m ∈ findAllFuel r fuel s →
      ∃ s0, tryMatch r s0 = some m
  | 0, s, m, h => by simp [findAllFuel] at h
  | fuel + 1, s, m, h => by
    rw [findAllFuel_succ] at h
    cases htm : tryMatch r s with
    | some m0 =>
      simp only [htm] at h
      by_cases hl : m0.rest.length < s.length
      · rw [if_pos hl] at h
        rcases List.mem_cons.mp h with rfl | h
        · exact ⟨s, htm⟩
        · exact findAllFuel_mem_tryMatch r fuel _ m h
      · rw [if_neg hl] at h
        cases s with
        | nil =>
          simp only [List.mem_singleton] at h
          subst h
          exact ⟨[], htm⟩
        | cons c t =>
          rcases List.mem_cons.mp h with rfl | h
          · exact ⟨c :: t, htm⟩
          · exact findAllFuel_mem_tryMatch r fuel t m h
    | none =>
      simp only [htm] at h
      cases s with
      | nil => simp at h
      | cons c t => exact findAllFuel_mem_tryMatch r fuel t m h

theorem finditer_mem_tryMatch {r : RE} {s : List Char} {m : MatchRes} (h : m ∈ finditer r s) :
    ∃ s0, tryMatch r s0 = some m :=
  findAllFuel_mem_tryMatch r _ s m h

/-- Claim C7 (confirmed): in every occurrence returned by `extract_errors`,
`line_number` is set if and only if `file_path` is set, and keyword-fallback
occurrences set neither. -/
theorem claim_C7 (content : List Char) (e : ErrorInfo) (h : e ∈ extract_errors content) :
    (e.file_path.isSome ↔ e.line_number.isSome) ∧
    (e ∈ keywordExtrasOf content → e.file_path = none ∧ e.line_number = none) := by
  constructor
  · rw [extract_errors_split] at h
    rcases List.mem_append.mp h with h | h
    · obtain ⟨j, line, _, _, pt, hpt, m, hm, rfl⟩ :=
        structuredGo_mem (splitLinesPy content) (splitLinesPy content) 0 e h
      obtain ⟨s0, hs0⟩ := finditer_mem_tryMatch hm
      simp only [ERROR_PATTERNS, List.mem_cons, List.not_mem_nil, or_false] at hpt
      rcases hpt with rfl | rfl | rfl | rfl | rfl | rfl | rfl | rfl | rfl
      · have hspec : patPyFile.spineSpecs = [(1, notQuoteB), (2, isDigitB)] := rfl
        obtain ⟨v1, hv1, _⟩ := tryMatch_caps (by decide) hs0 (1, notQuoteB)
          (by rw [hspec]; exact List.mem_cons_self _ _)
        obtain ⟨v2, hv2, _⟩ := tryMatch_caps (by decide) hs0 (2, isDigitB)
          (by rw [hspec]; exact List.mem_cons_of_mem _ (List.mem_cons_self _ _))
        have hv1' : getCap 1 m.caps = some v1 := hv1
        have hv2' : getCap 2 m.caps = some v2 := hv2
        show (getCap 1 m.caps).isSome ↔ (Option.map digitsToNat (getCap 2 m.caps)).isSome
        rw [hv1', hv2']
        simp
      · show (none : Option (List Char)).isSome ↔ (none : Option Nat).isSome
        simp
      · have hspec : patJsAt.spineSpecs =
            [(1, fun _ => true), (2, fun _ => true), (3, isDigitB), (4, isDigitB)] := rfl
        obtain ⟨v1, hv1, _⟩ := tryMatch_caps (by decide) hs0 (2, fun _ => true)
          (by rw [hspec]; exact List.mem_cons_of_mem _ (List.mem_cons_self _ _))
        obtain ⟨v2, hv2, _⟩ := tryMatch_caps (by decide) hs0 (3, isDigitB)
          (by rw [hspec]
              exact List.mem_cons_of_mem _ (List.mem_cons_of_mem _ (List.mem_cons_self _ _)))
        have hv1' : getCap 2 m.caps = some v1 := hv1
        have hv2' : getCap 3 m.caps = some v2 := hv2
        show (getCap 2 m.caps).isSome ↔ (Option.map digitsToNat (getCap 3 m.caps)).isSome
        rw [hv1', hv2']
        simp
      · show (none : Option (List Char)).isSome ↔ (none : Option Nat).isSome
        simp
      · have hspec : patJavaAt.spineSpecs =
            [(1, fun _ => true), (2, fun _ => true), (3, isDigitB)] := rfl
        obtain ⟨v1, hv1, _⟩ := tryMatch_caps (by decide) hs0 (2, fun _ => true)
          (by rw [hspec]; exact List.mem_cons_of_mem _ (List.mem_cons_self _ _))
        obtain ⟨v2, hv2, _⟩ := tryMatch_caps (by decide) hs0 (3, isDigitB)
          (by rw [hspec]
              exact List.mem_cons_of_mem _ (List.mem_cons_of_mem _ (List.mem_cons_self _ _)))
        have hv1' : getCap 2 m.caps = some v1 := hv1
        have hv2' : getCap 3 m.caps = some v2 := hv2
        show (getCap 2 m.caps).isSome ↔ (Option.map digitsToNat (getCap 3 m.caps)).isSome
        rw [hv1', hv2']
        simp
      · have hspec : patExtColon.spineSpecs =
            [(1, fun _ => true), (2, fun _ => true), (3, isDigitB)] := rfl
        obtain ⟨v1, hv1, _⟩ := tryMatch_caps (by decide) hs0 (1, fun _ => true)
          (by rw [hspec]; exact List.mem_cons_self _ _)
        obtain ⟨v2, hv2, _⟩ := tryMatch_caps (by decide) hs0 (3, isDigitB)
          (by rw [hspec]
              exact List.mem_cons_of_mem _ (List.mem_cons_of_mem _ (List.mem_cons_self _ _)))
        have hv1' : getCap 1 m.caps = some v1 := hv1
        have hv2' : getCap 3 m.caps = some v2 := hv2
        show (getCap 1 m.caps).isSome ↔ (Option.map digitsToNat (getCap 3 m.caps)).isSome
        rw [hv1', hv2']
        simp
      · have hspec : patExtParen.spineSpecs =
            [(1, fun _ => true), (2, fun _ => true), (3, isDigitB)] := rfl
        obtain ⟨v1, hv1, _⟩ := tryMatch_caps (by decide) hs0 (1, fun _ => true)
          (by rw [hspec]; exact List.mem_cons_self _ _)
        obtain ⟨v2, hv2, _⟩ := tryMatch_caps (by decide) hs0 (3, isDigitB)
          (by rw [hspec]
              exact List.mem_cons_of_mem _ (List.mem_cons_of_mem _ (List.mem_cons_self _ _)))
        have hv1' : getCap 1 m.caps = some v1 := hv1
        have hv2' : getCap 3 m.caps = some v2 := hv2
        show (getCap 1 m.caps).isSome ↔ (Option.map digitsToNat (getCap 3 m.caps)).isSome
        rw [hv1', hv2']
        simp
      · have hspec : patSlash.spineSpecs = [(1, fun _ => true), (2, isDigitB)] := rfl
        obtain ⟨v1, hv1, _⟩ := tryMatch_caps (by decide) hs0 (1, fun _ => true)
          (by rw [hspec]; exact List.mem_cons_self _ _)
        obtain ⟨v2, hv2, _⟩ := tryMatch_caps (by decide) hs0 (2, isDigitB)
          (by rw [hspec]; exact List.mem_cons_of_mem _ (List.mem_cons_self _ _))
        have hv1' : getCap 1 m.caps = some v1 := hv1
        have hv2' : getCap 2 m.caps = some v2 := hv2
        show (getCap 1 m.caps).isSome ↔ (Option.map digitsToNat (getCap 2 m.caps)).isSome
        rw [hv1', hv2']
        simp
      · have hspec : patBackslash.spineSpecs = [(1, fun _ => true), (2, isDigitB)] := rfl
        obtain ⟨v1, hv1, _⟩ := tryMatch_caps (by decide) hs0 (1, fun _ => true)
          (by rw [hspec]; exact List.mem_cons_self _ _)
        obtain ⟨v2, hv2, _⟩ := tryMatch_caps (by decide) hs0 (2, isDigitB)
          (by rw [hspec]; exact List.mem_cons_of_mem _ (List.mem_cons_self _ _))
        have hv1' : getCap 1 m.caps = some v1 := hv1
        have hv2' : getCap 2 m.caps = some v2 := hv2
        show (getCap 1 m.caps).isSome ↔ (Option.map digitsToNat (getCap 2 m.caps)).isSome
        rw [hv1', hv2']
        simp
    · obtain ⟨_, _, h3⟩ :=
        keywordNew_shape (splitLinesPy content) (splitLinesPy content) 0 _ e h
      have hfp := congrArg ErrorInfo.file_path h3
      have hln := congrArg ErrorInfo.line_number h3
      simp only [kwErrorInfo] at hfp hln
      rw [hfp, hln]
      simp
  · intro hkw
    obtain ⟨_, _, h3⟩ :=
      keywordNew_shape (splitLinesPy content) (splitLinesPy content) 0 _ e hkw
    have hfp := congrArg ErrorInfo.file_path h3
    have hln := congrArg ErrorInfo.line_number h3
    simp only [kwErrorInfo] at hfp hln
    exact ⟨hfp, hln⟩

theorem claim_C7_witness :
    (((extract_errors docC7).getD 0 infoDefault).file_path.isSome ↔
      ((extract_errors docC7).getD 0 infoDefault).line_number.isSome) ∧
    ((extract_errors docC7).getD 0 infoDefault ∈ keywordExtrasOf docC7 →
      ((extract_errors docC7).getD 0 infoDefault).file_path = none ∧
      ((extract_errors docC7).getD 0 infoDefault).line_number = none) :=
  claim_C7 docC7 ((extract_errors docC7).getD 0 infoDefault) (by decide)

theorem get_file_refs_fold (errors : List ErrorInfo) :
    ∀ acc : List (List Char × Option Nat),
      errors.foldl (fun refs e =>
        match e.file_path with
        | none => refs
        | some fp =>
          if (trimChars fp, e.line_number) ∈ refs then refs
          else refs ++ [(trimChars fp, e.line_number)]) acc =
      acc ++ dedupFirst acc (fileRefPairs errors) := by
  induction errors with
  | nil => intro acc; simp [fileRefPairs, dedupFirst]
  | cons e rest ih =>
    intro acc
    cases hfp : e.file_path with
    | none =>
      simp only [List.foldl_cons, hfp]
      rw [ih acc]
      simp [fileRefPairs, List.filterMap_cons, hfp]
    | some fp =>
      simp only [List.foldl_cons, hfp]
      by_cases hx : (trimChars fp, e.line_number) ∈ acc
      · rw [if_pos hx, ih acc]
        have : fileRefPairs (e :: rest) = (trimChars fp, e.line_number) :: fileRefPairs rest := by
          simp [fileRefPairs, List.filterMap_cons, hfp]
        rw [this, dedupFirst, if_pos hx]
      · rw [if_neg hx, ih (acc ++ [(trimChars fp, e.line_number)])]
        have : fileRefPairs (e :: rest) = (trimChars fp, e.line_number) :: fileRefPairs rest := by
          simp [fileRefPairs, List.filterMap_cons, hfp]
        rw [this, dedupFirst, if_neg hx]
        simp

theorem get_file_references_from_eq (errors : List ErrorInfo) :
    get_file_references_from errors = dedupFirst [] (fileRefPairs errors) := by
  have h := get_file_refs_fold errors []
  simpa [get_file_references_from] using h

theorem dedupFirst_not_mem_acc {α : Type} [DecidableEq α] :
    ∀ (l acc : List α) (x : α), x ∈ dedupFirst acc l → x ∉ acc
  | [], acc, x, h => by simp [dedupFirst] at h
  | y :: l, acc, x, h => by
    rw [dedupFirst] at h
    by_cases hy : y ∈ acc
    · rw [if_pos hy] at h
      exact dedupFirst_not_mem_acc l acc x h
    · rw [if_neg hy] at h
      rcases List.mem_cons.mp h with rfl | h
      · exact hy
      · intro hxacc
        exact dedupFirst_not_mem_acc l (acc ++ [y]) x h (List.mem_append_left _ hxacc)

theorem dedupFirst_nodup {α : Type} [DecidableEq α] :
    ∀ (l acc : List α), (dedupFirst acc l).Nodup
  | [], _ => List.Pairwise.nil
  | y :: l, acc => by
    rw [dedupFirst]
    by_cases hy : y ∈ acc
    · rw [if_pos hy]
      exact dedupFirst_nodup l acc
    · rw [if_neg hy]
      refine List.nodup_cons.mpr ⟨fun hmem => ?_, dedupFirst_nodup l (acc ++ [y])⟩
      exact dedupFirst_not_mem_acc l (acc ++ [y]) y hmem
        (List.mem_append_right _ (List.mem_singleton_self y))

theorem dedupFirst_sublist {α : Type} [DecidableEq α] :
    ∀ (l acc : List α), (dedupFirst acc l).Sublist l
  | [], _ => by rw [dedupFirst]
  | y :: l, acc => by
    rw [dedupFirst]
    by_cases hy : y ∈ acc
    · rw [if_pos hy]
      exact List.Sublist.cons y (dedupFirst_sublist l acc)
    · rw [if_neg hy]
      exact List.Sublist.cons₂ y (dedupFirst_sublist l (acc ++ [y]))

theorem dedupFirst_complete {α : Type} [DecidableEq α] :
    ∀ (l acc : List α) (x : α), x ∈ l → x ∈ acc ∨ x ∈ dedupFirst acc l
  | [], _, _, h => by simp at h
  | y :: l, acc, x, h => by
    rw [dedupFirst]
    by_cases hy : y ∈ acc
    · rw [if_pos hy]
      rcases List.mem_cons.mp h with rfl | h
      · exact Or.inl hy
      · exact dedupFirst_complete l acc x h
    · rw [if_neg hy]
      rcases List.mem_cons.mp h with rfl | h
      · exact Or.inr (List.mem_cons_self _ _)
      · rcases dedupFirst_complete l (acc ++ [y]) x h with hm | hm
        · rcases List.mem_append.mp hm with hm | hm
          · exact Or.inl hm
          · rw [List.mem_singleton] at hm
            subst hm
            exact Or.inr (List.mem_cons_self _ _)
        · exact Or.inr (List.mem_cons_of_mem _ hm)

/-- Claim C8 (confirmed): `get_file_references` emits exactly the
`(stripped path, line number)` projection of the occurrences carrying a file
path, deduplicated by pair equality keeping first occurrences: no duplicate
pairs, a subsequence of the full projection (so first-occurrence order), and
the same set of pairs as the full projection. -/
theorem claim_C8 (content : List Char) :
    get_file_references content = dedupFirst [] (fileRefPairs (extract_errors content)) ∧
    (get_file_references content).Nodup ∧
    (get_file_references content).Sublist (fileRefPairs (extract_errors content)) ∧
    (get_file_references content).toFinset = (fileRefPairs (extract_errors content)).toFinset := by
  have heq : get_file_references content = dedupFirst [] (fileRefPairs (extract_errors content)) :=
    get_file_references_from_eq (extract_errors content)
  refine ⟨heq, ?_, ?_, ?_⟩
  · rw [heq]
    exact dedupFirst_nodup _ _
  · rw [heq]
    exact dedupFirst_sublist _ _
  · ext x
    simp only [List.mem_toFinset]
    constructor
    · intro hx
      rw [heq] at hx
      exact (dedupFirst_sublist _ _).subset hx
    · intro hx
      rw [heq]
      rcases dedupFirst_complete _ [] x hx with hm | hm
      · simp at hm
      · exact hm

/-- Claim C9 (confirmed): on any valid analyzer state (fresh, or with the
error cache computed from its own content), `get_summary` reports
`total_errors` equal to the length of `extract_errors` output and
`file_references` equal to the length of `get_file_references`. -/
theorem claim_C9 (st : AnalyzerState)
    (h : st.errors = [] ∨ st.errors = extract_errors st.content) :
    (getSummaryM st).1.total_errors = (extract_errors st.content).length ∧
    (getSummaryM st).1.file_references = (get_file_references st.content).length := by
  rcases h with h | h <;> by_cases he : extract_errors st.content = [] <;>
    simp [getSummaryM, getFileReferencesM, extractErrorsM, get_file_references, h, he]

theorem claim_C9_witness :
    (getSummaryM ⟨docC9, []⟩).1.total_errors = (extract_errors docC9).length ∧
    (getSummaryM ⟨docC9, []⟩).1.file_references = (get_file_references docC9).length :=
  claim_C9 ⟨docC9, []⟩ (Or.inl rfl)

theorem predInv_isDigitB : PredInv isDigitB := by
  intro a b h
  simp only [lowNat] at h
  simp only [isDigitB, decide_eq_decide]
  split_ifs at h <;> omega

theorem predInv_dotB : PredInv dotB := by
  intro a b h
  simp only [lowNat] at h
  simp only [dotB, decide_eq_decide]
  split_ifs at h <;> omega

theorem predInv_notQuoteB : PredInv notQuoteB := by
  intro a b h
  simp only [lowNat] at h
  simp only [notQuoteB, decide_eq_decide]
  split_ifs at h <;> omega

theorem predInv_nonSpaceColonB : PredInv nonSpaceColonB := by
  intro a b h
  simp only [lowNat] at h
  have hiff : ∀ x y : Bool, (x = true ↔ y = true) → x = y := by
    intro x y hxy
    cases x <;> cases y <;> simp_all
  apply hiff
  simp only [nonSpaceColonB, isSpaceB, Bool.and_eq_true, Bool.not_eq_true',
    decide_eq_true_eq, decide_eq_false_iff_not]
  split_ifs at h <;> omega

theorem goodRE_litStr : ∀ s : List Char, GoodRE (litStr s)
  | [] => trivial
  | _ :: s => ⟨trivial, goodRE_litStr s⟩

theorem goodRE_extAlt : GoodRE extAlt :=
  ⟨goodRE_litStr _, goodRE_litStr _, goodRE_litStr _, goodRE_litStr _, goodRE_litStr _,
    goodRE_litStr _, goodRE_litStr _, goodRE_litStr _, goodRE_litStr _⟩

theorem goodRE_fileDotExt : GoodRE fileDotExt :=
  ⟨predInv_nonSpaceColonB, trivial, goodRE_extAlt⟩

theorem goodRE_patterns : ∀ pt ∈ ERROR_PATTERNS, GoodRE pt.1 := by
  intro pt hpt
  simp only [ERROR_PATTERNS, List.mem_cons, List.not_mem_nil, or_false] at hpt
  rcases hpt with rfl | rfl | rfl | rfl | rfl | rfl | rfl | rfl | rfl
  · exact ⟨goodRE_litStr _, predInv_notQuoteB, goodRE_litStr _, predInv_isDigitB⟩
  · exact goodRE_litStr _
  · exact ⟨goodRE_litStr _, predInv_dotB, goodRE_litStr _, predInv_dotB, trivial,
      predInv_isDigitB, trivial, predInv_isDigitB, trivial⟩
  · exact ⟨goodRE_litStr _, predInv_dotB⟩
  · exact ⟨goodRE_litStr _, predInv_dotB, trivial, predInv_dotB, trivial,
      predInv_isDigitB, trivial⟩
  · exact ⟨goodRE_fileDotExt, trivial, predInv_isDigitB, trivial⟩
  · exact ⟨goodRE_fileDotExt, trivial, predInv_isDigitB, trivial⟩
  · exact ⟨⟨predInv_nonSpaceColonB, trivial, predInv_nonSpaceColonB⟩, trivial, predInv_isDigitB⟩
  · exact ⟨⟨predInv_nonSpaceColonB, trivial, predInv_nonSpaceColonB⟩, trivial, predInv_isDigitB⟩

theorem forall₂_append {α β : Type} {R : α → β → Prop} :
    ∀ {l1 l2 : List α} {u1 u2 : List β}, List.Forall₂ R l1 u1 → List.Forall₂ R l2 u2 →
      List.Forall₂ R (l1 ++ l2) (u1 ++ u2) := by
  intro l1 l2 u1 u2 h1 h2
  induction h1 with
  | nil => exact h2
  | cons hab _ ih => exact List.Forall₂.cons hab ih

theorem forall₂_flatMap {α β : Type} {S : β → β → Prop} (f g : α → List β) :
    ∀ (l : List α), (∀ a ∈ l, List.Forall₂ S (f a) (g a)) →
      List.Forall₂ S (l.flatMap f) (l.flatMap g)
  | [], _ => List.Forall₂.nil
  | a :: l, h => by
    simp only [List.flatMap_cons]
    exact forall₂_append (h a (List.mem_cons_self _ _))
      (forall₂_flatMap f g l (fun b hb => h b (List.mem_cons_of_mem _ hb)))

theorem forall₂_map_mem {α β : Type} {R : α → α → Prop} {S : β → β → Prop} (f g : α → β) :
    ∀ {l l' : List α}, List.Forall₂ R l l' →
      (∀ a b, a ∈ l → b ∈ l' → R a b → S (f a) (g b)) →
      List.Forall₂ S (l.map f) (l'.map g) := by
  intro l l' h
  induction h with
  | nil => exact fun _ => List.Forall₂.nil
  | @cons x y t t' hxy _ ih =>
    intro hf
    refine List.Forall₂.cons (hf x y (List.mem_cons_self _ _) (List.mem_cons_self _ _) hxy) ?_
    exact ih (fun a b ha hb hr => hf a b (List.mem_cons_of_mem _ ha) (List.mem_cons_of_mem _ hb) hr)

theorem getCap_rel {caps caps' : Caps} (h : capsRel caps caps') (n : Nat) :
    optCaseEq (getCap n caps) (getCap n caps') := by
  induction h with
  | nil => exact trivial
  | @cons p q c c' hpq _ ih =>
    rw [getCap, getCap]
    by_cases hn : p.1 = n
    · rw [if_pos hn, if_pos (by rw [← hpq.1]; exact hn)]
      exact hpq.2
    · rw [if_neg hn, if_neg (by rw [← hpq.1]; exact hn)]
      exact ih

theorem digitsToNat_caseEq :
    ∀ {v v' : List Char}, caseEqL v v' → v.all isDigitB = true →
      digitsToNat v = digitsToNat v' := by
  have main : ∀ {v v' : List Char}, caseEqL v v' → v.all isDigitB = true → ∀ acc : Nat,
      v.foldl (fun a c => a * 10 + (c.toNat - 48)) acc =
        v'.foldl (fun a c => a * 10 + (c.toNat - 48)) acc := by
    intro v v' h
    induction h with
    | nil => exact fun _ _ => rfl
    | @cons x y l m hxy _ ih =>
      intro hd acc
      simp only [List.all_cons, Bool.and_eq_true] at hd
      have hx : 48 ≤ x.toNat ∧ x.toNat ≤ 57 := by
        have h1 := hd.1
        simpa [isDigitB] using h1
      have hxy2 : x.toNat = y.toNat := by
        have h2 := hxy
        simp only [caseEq, lowNat] at h2
        split_ifs at h2 <;> omega
      simp only [List.foldl_cons]
      rw [hxy2]
      exact ih hd.2 _
  intro v v' h hd
  exact main h hd 0

theorem upNat_caseEq {x y : Char} (h : caseEq x y) : upNat x.toNat = upNat y.toNat := by
  have h2 := h
  simp only [caseEq, lowNat] at h2
  simp only [upNat]
  split_ifs at h2 ⊢ <;> omega

theorem mapUp_eq {l l' : List Char} (h : caseEqL l l') :
    l.map (fun c => upNat c.toNat) = l'.map (fun c => upNat c.toNat) := by
  induction h with
  | nil => rfl
  | cons hxy _ ih =>
    simp only [List.map_cons]
    rw [upNat_caseEq hxy, ih]

theorem hasKeywordB_caseEq {l l' : List Char} (h : caseEqL l l') :
    hasKeywordB l = hasKeywordB l' := by
  simp only [hasKeywordB]
  rw [mapUp_eq h]

theorem contextSlice_rel {lines lines' : List (List Char)}
    (h : List.Forall₂ caseEqL lines lines') (i : Nat) :
    List.Forall₂ caseEqL (contextSlice lines i) (contextSlice lines' i) := by
  simp only [contextSlice]
  rw [List.Forall₂.length_eq h]
  exact List.forall₂_take _ (List.forall₂_drop _ h)

theorem splitLinesPy_sim : ∀ {c c' : List Char}, caseEqL c c' →
    List.Forall₂ caseEqL (splitLinesPy c) (splitLinesPy c') := by
  intro c c' h
  induction h with
  | nil => exact List.Forall₂.cons List.Forall₂.nil List.Forall₂.nil
  | @cons x y l m hxy _ ih =>
    rw [splitLinesPy, splitLinesPy]
    have hnl : x.toNat = 10 ↔ y.toNat = 10 := by
      have h2 := hxy
      simp only [caseEq, lowNat] at h2
      split_ifs at h2 <;> omega
    by_cases hx : x.toNat = 10
    · rw [if_pos hx, if_pos (hnl.mp hx)]
      exact List.Forall₂.cons List.Forall₂.nil ih
    · rw [if_neg hx, if_neg (fun hy => hx (hnl.mpr hy))]
      cases hA : splitLinesPy l with
      | nil =>
        cases hB : splitLinesPy m with
        | nil => exact List.Forall₂.cons (List.Forall₂.cons hxy List.Forall₂.nil) List.Forall₂.nil
        | cons b bs =>
          rw [hA, hB] at ih
          cases ih
      | cons a as =>
        cases hB : splitLinesPy m with
        | nil =>
          rw [hA, hB] at ih
          cases ih
        | cons b bs =>
          rw [hA, hB] at ih
          cases ih with
          | cons hab htail2 => exact List.Forall₂.cons (List.Forall₂.cons hxy hab) htail2

theorem greedyMore_sim {p : Char → Bool} (hp : PredInv p)
    {k k' : List Char → Caps → Option MatchRes} (hk : KRel k k')
    {caps caps' : Caps} (hc : capsRel caps caps') :
    ∀ {input input' : List Char}, caseEqL input input' →
      OptRel (greedyMore p k caps input) (greedyMore p k' caps' input') := by
  intro input input' h
  induction h with
  | nil => exact hk [] [] caps caps' List.Forall₂.nil hc
  | @cons x y l m hxy htail ih =>
    rw [greedyMore, greedyMore, hp x y hxy]
    by_cases hpy : p y = true
    · rw [if_pos hpy, if_pos hpy]
      cases hA : greedyMore p k caps l with
      | some rA =>
        cases hB : greedyMore p k' caps' m with
        | some rB =>
          rw [hA, hB] at ih
          exact ih
        | none =>
          rw [hA, hB] at ih
          cases ih
      | none =>
        cases hB : greedyMore p k' caps' m with
        | some rB =>
          rw [hA, hB] at ih
          cases ih
        | none => exact hk _ _ _ _ (List.Forall₂.cons hxy htail) hc
    · rw [if_neg hpy, if_neg hpy]
      exact hk _ _ _ _ (List.Forall₂.cons hxy htail) hc

theorem lazyMore_sim {p : Char → Bool} (hp : PredInv p)
    {k k' : List Char → Caps → Option MatchRes} (hk : KRel k k')
    {caps caps' : Caps} (hc : capsRel caps caps') :
    ∀ {input input' : List Char}, caseEqL input input' →
      OptRel (lazyMore p k caps input) (lazyMore p k' caps' input') := by
  intro input input' h
  induction h with
  | nil => exact hk [] [] caps caps' List.Forall₂.nil hc
  | @cons x y l m hxy htail ih =>
    rw [lazyMore, lazyMore]
    have hk0 := hk _ _ _ _ (List.Forall₂.cons hxy htail) hc
    cases hA : k (x :: l) caps with
    | some rA =>
      cases hB : k' (y :: m) caps' with
      | some rB =>
        rw [hA, hB] at hk0
        exact hk0
      | none =>
        rw [hA, hB] at hk0
        cases hk0
    | none =>
      cases hB : k' (y :: m) caps' with
      | some rB =>
        rw [hA, hB] at hk0
        cases hk0
      | none =>
        rw [hp x y hxy]
        by_cases hpy : p y = true
        · rw [if_pos hpy, if_pos hpy]
          exact ih
        · rw [if_neg hpy, if_neg hpy]
          exact OptRel.none

theorem matchRE_sim :
    ∀ (r : RE), GoodRE r →
    ∀ (k k' : List Char → Caps → Option MatchRes), KRel k k' →
    ∀ (input input' : List Char) (caps caps' : Caps),
      caseEqL input input' → capsRel caps caps' →
      OptRel (matchRE r input k caps) (matchRE r input' k' caps')
  | .eps, _, _, _, hk, _, _, _, _, hin, hc => hk _ _ _ _ hin hc
  | .lit c, _, k, k', hk, input, input', caps, caps', hin, hc => by
    cases hin with
    | nil => exact OptRel.none
    | @cons x y l m hxy htail =>
      have hl : litMatch c x = litMatch c y := by
        simp only [litMatch]
        rw [hxy]
      rw [matchRE, matchRE, hl]
      by_cases hY : litMatch c y = true
      · rw [if_pos hY, if_pos hY]
        exact hk _ _ _ _ htail hc
      · rw [if_neg hY, if_neg hY]
        exact OptRel.none
  | .cls p, hg, k, k', hk, input, input', caps, caps', hin, hc => by
    have hp : PredInv p := hg
    cases hin with
    | nil => exact OptRel.none
    | @cons x y l m hxy htail =>
      rw [matchRE, matchRE, hp x y hxy]
      by_cases hY : p y = true
      · rw [if_pos hY, if_pos hY]
        exact hk _ _ _ _ htail hc
      · rw [if_neg hY, if_neg hY]
        exact OptRel.none
  | .seq a b, hg, k, k', hk, input, input', caps, caps', hin, hc => by
    have hg2 : GoodRE a ∧ GoodRE b := hg
    rw [matchRE, matchRE]
    exact matchRE_sim a hg2.1 _ _
      (fun rest rest' c c' hr hcc => matchRE_sim b hg2.2 k k' hk rest rest' c c' hr hcc)
      input input' caps caps' hin hc
  | .alt a b, hg, k, k', hk, input, input', caps, caps', hin, hc => by
    have hg2 : GoodRE a ∧ GoodRE b := hg
    rw [matchRE, matchRE]
    have hA0 := matchRE_sim a hg2.1 k k' hk input input' caps caps' hin hc
    cases hA : matchRE a input k caps with
    | some rA =>
      cases hB : matchRE a input' k' caps' with
      | some rB =>
        rw [hA, hB] at hA0
        exact hA0
      | none =>
        rw [hA, hB] at hA0
        cases hA0
    | none =>
      cases hB : matchRE a input' k' caps' with
      | some rB =>
        rw [hA, hB] at hA0
        cases hA0
      | none => exact matchRE_sim b hg2.2 k k' hk input input' caps caps' hin hc
  | .grp n r, hg, k, k', hk, input, input', caps, caps', hin, hc => by
    have hgr : GoodRE r := hg
    rw [matchRE, matchRE]
    refine matchRE_sim r hgr _ _ ?_ input input' caps caps' hin hc
    intro rest rest' c c' hr hcc
    have hd : input.length - rest.length = input'.length - rest'.length := by
      rw [List.Forall₂.length_eq hin, List.Forall₂.length_eq hr]
    refine hk _ _ _ _ hr (List.Forall₂.cons ⟨rfl, ?_⟩ hcc)
    show caseEqL (input.take (input.length - rest.length))
      (input'.take (input'.length - rest'.length))
    rw [← hd]
    exact List.forall₂_take _ hin
  | .plusG p, hg, k, k', hk, input, input', caps, caps', hin, hc => by
    have hp : PredInv p := hg
    cases hin with
    | nil => exact OptRel.none
    | @cons x y l m hxy htail =>
      rw [matchRE, matchRE, hp x y hxy]
      by_cases hY : p y = true
      · rw [if_pos hY, if_pos hY]
        exact greedyMore_sim hp hk hc htail
      · rw [if_neg hY, if_neg hY]
        exact OptRel.none
  | .plusL p, hg, k, k', hk, input, input', caps, caps', hin, hc => by
    have hp : PredInv p := hg
    cases hin with
    | nil => exact OptRel.none
    | @cons x y l m hxy htail =>
      rw [matchRE, matchRE, hp x y hxy]
      by_cases hY : p y = true
      · rw [if_pos hY, if_pos hY]
        exact lazyMore_sim hp hk hc htail
      · rw [if_neg hY, if_neg hY]
        exact OptRel.none

theorem tryMatch_sim {r : RE} (hg : GoodRE r) {s s' : List Char} (h : caseEqL s s') :
    OptRel (tryMatch r s) (tryMatch r s') :=
  matchRE_sim r hg _ _ (fun _ _ _ _ hr hcc => OptRel.some ⟨hr, hcc⟩) s s' [] [] h
    List.Forall₂.nil

theorem findAllFuel_sim {r : RE} (hg : GoodRE r) :
    ∀ (fuel : Nat) {s s' : List Char}, caseEqL s s' →
      List.Forall₂ resRel (findAllFuel r fuel s) (findAllFuel r fuel s')
  | 0, _, _, _ => List.Forall₂.nil
  | fuel + 1, s, s', h => by
    have ht := tryMatch_sim hg h
    cases hA : tryMatch r s with
    | none =>
      cases hB : tryMatch r s' with
      | some mB =>
        rw [hA, hB] at ht
        cases ht
      | none =>
        simp only [findAllFuel_succ, hA, hB]
        cases h with
        | nil => exact List.Forall₂.nil
        | @cons x y l m hxy htail => exact findAllFuel_sim hg fuel htail
    | some mA =>
      cases hB : tryMatch r s' with
      | none =>
        rw [hA, hB] at ht
        cases ht
      | some mB =>
        rw [hA, hB] at ht
        have hres : resRel mA mB := by
          cases ht with
          | some hr => exact hr
        have hlen : mA.rest.length = mB.rest.length := List.Forall₂.length_eq hres.1
        have hslen : s.length = s'.length := List.Forall₂.length_eq h
        simp only [findAllFuel_succ, hA, hB]
        by_cases hl : mA.rest.length < s.length
        · rw [if_pos hl, if_pos (show mB.rest.length < s'.length by omega)]
          exact List.Forall₂.cons hres (findAllFuel_sim hg fuel hres.1)
        · rw [if_neg hl, if_neg (show ¬ mB.rest.length < s'.length by omega)]
          cases h with
          | nil => exact List.Forall₂.cons hres List.Forall₂.nil
          | @cons x y l m hxy htail =>
            exact List.Forall₂.cons hres (findAllFuel_sim hg fuel htail)

theorem finditer_sim {r : RE} (hg : GoodRE r) {s s' : List Char} (h : caseEqL s s') :
    List.Forall₂ resRel (finditer r s) (finditer r s') := by
  unfold finditer
  rw [List.Forall₂.length_eq h]
  exact findAllFuel_sim hg _ h

theorem line_number_rel {p : RE} (hnd : p.allGroups.Nodup) {g : Nat}
    (hmem : (g, isDigitB) ∈ p.spineSpecs) {line line' : List Char} {m m' : MatchRes}
    (hm : m ∈ finditer p line) (hm' : m' ∈ finditer p line')
    (hcaps : capsRel m.caps m'.caps) :
    Option.map digitsToNat (getCap g m.caps) = Option.map digitsToNat (getCap g m'.caps) := by
  obtain ⟨s0, hs0⟩ := finditer_mem_tryMatch hm
  obtain ⟨s1, hs1⟩ := finditer_mem_tryMatch hm'
  obtain ⟨v, hv, hvd⟩ := tryMatch_caps hnd hs0 (g, isDigitB) hmem
  obtain ⟨v', hv', _⟩ := tryMatch_caps hnd hs1 (g, isDigitB) hmem
  have hva : getCap g m.caps = some v := hv
  have hvb : getCap g m'.caps = some v' := hv'
  have hrel := getCap_rel hcaps g
  rw [hva, hvb] at hrel
  have hvv : caseEqL v v' := hrel
  rw [hva, hvb]
  simp only [Option.map_some']
  rw [digitsToNat_caseEq hvv hvd]

theorem mkErrorInfo_rel {lines lines' : List (List Char)}
    (hls : List.Forall₂ caseEqL lines lines') (i : Nat) {line line' : List Char}
    (hl : caseEqL line line') {pt : RE × String} (hpt : pt ∈ ERROR_PATTERNS)
    {m m' : MatchRes} (hm : m ∈ finditer pt.1 line) (hm' : m' ∈ finditer pt.1 line')
    (hres : resRel m m') :
    errRel (mkErrorInfo lines i line pt.1 pt.2 m) (mkErrorInfo lines' i line' pt.1 pt.2 m') := by
  simp only [ERROR_PATTERNS, List.mem_cons, List.not_mem_nil, or_false] at hpt
  rcases hpt with rfl | rfl | rfl | rfl | rfl | rfl | rfl | rfl | rfl
  · refine ⟨rfl, rfl, hl, getCap_rel hres.2 1, ?_, contextSlice_rel hls i⟩
    exact line_number_rel (by decide)
      (by rw [(rfl : patPyFile.spineSpecs = [(1, notQuoteB), (2, isDigitB)])]
          exact List.mem_cons_of_mem _ (List.mem_cons_self _ _)) hm hm' hres.2
  · exact ⟨rfl, rfl, hl, trivial, rfl, contextSlice_rel hls i⟩
  · refine ⟨rfl, rfl, hl, getCap_rel hres.2 2, ?_, contextSlice_rel hls i⟩
    exact line_number_rel (by decide)
      (by rw [(rfl : patJsAt.spineSpecs =
            [(1, fun _ => true), (2, fun _ => true), (3, isDigitB), (4, isDigitB)])]
          exact List.mem_cons_of_mem _ (List.mem_cons_of_mem _ (List.mem_cons_self _ _)))
      hm hm' hres.2
  · exact ⟨rfl, rfl, hl, trivial, rfl, contextSlice_rel hls i⟩
  · refine ⟨rfl, rfl, hl, getCap_rel hres.2 2, ?_, contextSlice_rel hls i⟩
    exact line_number_rel (by decide)
      (by rw [(rfl : patJavaAt.spineSpecs =
            [(1, fun _ => true), (2, fun _ => true), (3, isDigitB)])]
          exact List.mem_cons_of_mem _ (List.mem_cons_of_mem _ (List.mem_cons_self _ _)))
      hm hm' hres.2
  · refine ⟨rfl, rfl, hl, getCap_rel hres.2 1, ?_, contextSlice_rel hls i⟩
    exact line_number_rel (by decide)
      (by rw [(rfl : patExtColon.spineSpecs =
            [(1, fun _ => true), (2, fun _ => true), (3, isDigitB)])]
          exact List.mem_cons_of_mem _ (List.mem_cons_of_mem _ (List.mem_cons_self _ _)))
      hm hm' hres.2
  · refine ⟨rfl, rfl, hl, getCap_rel hres.2 1, ?_, contextSlice_rel hls i⟩
    exact line_number_rel (by decide)
      (by rw [(rfl : patExtParen.spineSpecs =
            [(1, fun _ => true), (2, fun _ => true), (3, isDigitB)])]
          exact List.mem_cons_of_mem _ (List.mem_cons_of_mem _ (List.mem_cons_self _ _)))
      hm hm' hres.2
  · refine ⟨rfl, rfl, hl, getCap_rel hres.2 1, ?_, contextSlice_rel hls i⟩
    exact line_number_rel (by decide)
      (by rw [(rfl : patSlash.spineSpecs = [(1, fun _ => true), (2, isDigitB)])]
          exact List.mem_cons_of_mem _ (List.mem_cons_self _ _)) hm hm' hres.2
  · refine ⟨rfl, rfl, hl, getCap_rel hres.2 1, ?_, contextSlice_rel hls i⟩
    exact line_number_rel (by decide)
      (by rw [(rfl : patBackslash.spineSpecs = [(1, fun _ => true), (2, isDigitB)])]
          exact List.mem_cons_of_mem _ (List.mem_cons_self _ _)) hm hm' hres.2

theorem lineMatches_sim {lines lines' : List (List Char)}
    (hls : List.Forall₂ caseEqL lines lines') (i : Nat) {line line' : List Char}
    (hl : caseEqL line line') :
    List.Forall₂ errRel (lineMatches lines i line) (lineMatches lines' i line') := by
  simp only [lineMatches]
  refine forall₂_flatMap _ _ ERROR_PATTERNS (fun pt hpt => ?_)
  have hfin := finditer_sim (goodRE_patterns pt hpt) hl
  exact forall₂_map_mem _ _ hfin
    (fun m m' hm hm' hres => mkErrorInfo_rel hls i hl hpt hm hm' hres)

theorem structuredGo_sim {lines lines' : List (List Char)}
    (hls : List.Forall₂ caseEqL lines lines') :
    ∀ {ls ls' : List (List Char)}, List.Forall₂ caseEqL ls ls' → ∀ (i : Nat),
      List.Forall₂ errRel (structuredGo lines ls i) (structuredGo lines' ls' i) := by
  intro ls ls' h
  induction h with
  | nil => exact fun _ => List.Forall₂.nil
  | @cons x y l m hxy _ ih =>
    intro i
    rw [structuredGo, structuredGo]
    exact forall₂_append (lineMatches_sim hls i hxy) (ih (i + 1))

theorem kwErrorInfo_rel {lines lines' : List (List Char)}
    (hls : List.Forall₂ caseEqL lines lines') (i : Nat) {line line' : List Char}
    (hl : caseEqL line line') :
    errRel (kwErrorInfo lines i line) (kwErrorInfo lines' i line') :=
  ⟨rfl, rfl, hl, trivial, rfl, contextSlice_rel hls i⟩

theorem any_line_eq {errs errs' : List ErrorInfo} (h : List.Forall₂ errRel errs errs')
    (i : Nat) :
    errs.any (fun e => e.line_in_log == i + 1) = errs'.any (fun e => e.line_in_log == i + 1) := by
  induction h with
  | nil => rfl
  | cons hxy _ ih =>
    simp only [List.any_cons]
    rw [hxy.2.1, ih]

theorem kwCond_rel {errs errs' : List ErrorInfo} (h : List.Forall₂ errRel errs errs')
    {line line' : List Char} (hl : caseEqL line line') (i : Nat) :
    kwCond errs i line = kwCond errs' i line' := by
  simp only [kwCond]
  rw [hasKeywordB_caseEq hl, any_line_eq h i]

theorem keywordNew_sim {lines lines' : List (List Char)}
    (hls : List.Forall₂ caseEqL lines lines') :
    ∀ {ls ls' : List (List Char)}, List.Forall₂ caseEqL ls ls' →
    ∀ (i : Nat) {errs errs' : List ErrorInfo}, List.Forall₂ errRel errs errs' →
      List.Forall₂ errRel (keywordNew lines ls i errs) (keywordNew lines' ls' i errs') := by
  intro ls ls' h
  induction h with
  | nil => exact fun _ _ _ _ => List.Forall₂.nil
  | @cons x y l m hxy _ ih =>
    intro i errs errs' herrs
    rw [keywordNew, keywordNew, kwCond_rel herrs hxy i]
    by_cases hc : kwCond errs' i y = true
    · rw [if_pos hc, if_pos hc]
      exact List.Forall₂.cons (kwErrorInfo_rel hls i hxy)
        (ih (i + 1) (forall₂_append herrs
          (List.Forall₂.cons (kwErrorInfo_rel hls i hxy) List.Forall₂.nil)))
    · rw [if_neg hc, if_neg hc]
      exact ih (i + 1) herrs

/-- Claim C10 (confirmed): pattern matching is case-insensitive.  Two
case-equivalent documents produce pointwise-corresponding occurrence lists:
same kinds, same log lines, same parsed line numbers, case-equivalent text
fields.  In particular a line matching a structured pattern only up to letter
case still yields that structured occurrence rather than falling through to
the keyword layer. -/
theorem claim_C10 (content content' : List Char) (h : caseEqL content content') :
    List.Forall₂ errRel (extract_errors content) (extract_errors content') := by
  have hls := splitLinesPy_sim h
  simp only [extract_errors]
  rw [keywordPass_eq, keywordPass_eq]
  have hstruct := structuredGo_sim hls hls 0
  exact forall₂_append hstruct (keywordNew_sim hls hls 0 hstruct)

theorem caseEqL_of_b : ∀ (l l' : List Char), caseEqLB l l' = true → caseEqL l l'
  | [], [], _ => List.Forall₂.nil
  | [], _ :: _, h => by simp [caseEqLB] at h
  | _ :: _, [], h => by simp [caseEqLB] at h
  | a :: l, b :: m, h => by
    rw [caseEqLB] at h
    simp only [Bool.and_eq_true, beq_iff_eq] at h
    exact List.Forall₂.cons h.1 (caseEqL_of_b l m h.2)

theorem claim_C10_witness :
    List.Forall₂ errRel (extract_errors docC10) (extract_errors docC10up) :=
  claim_C10 docC10 docC10up (caseEqL_of_b _ _ (by decide))
